import Mathlib

set_option autoImplicit false

namespace DeleteFilesPlugin

/-- A filesystem snapshot: the existing entries, each an absolute path paired with
whether the entry is a directory. -/
abbrev Fs := List (String × Bool)

/-- The `IDeleteOperation` / `IFileSelectionSpecifier` record: a source path and a glob
pattern (exclusion patterns are folded into the abstract selection function below). -/
structure IDeleteOperation where
  sourcePath : String
  includeGlob : String
deriving DecidableEq, Repr

/-- A string denoting an absolute path (starts with a slash). -/
def isAbsPath (s : String) : Bool := s.data.head? == some '/'

/-- Modelled from the spec: `normalizeFileSelectionSpecifier` (FileGlobSpecifier.ts, not in
src/). "Normalization resolves relative patterns against rootFolder": the operation's
source path is resolved against the root folder, an already absolute source path staying
as it is. -/
def normalizeFileSelectionSpecifier (rootFolderPath : String) (op : IDeleteOperation) :
    IDeleteOperation :=
  if isAbsPath op.sourcePath then op
  else { op with sourcePath := rootFolderPath ++ "/" ++ op.sourcePath }

/-- The error raised when a glob pattern cannot be parsed, propagated from the selector. -/
structure SelectionError where
  message : String
deriving DecidableEq, Repr

/-- The external collaborators, abstracted: which (normalized) specifiers have a
well-formed pattern, which absolute paths each specifier selects, and which paths fail
deletion with a hard (non-missing) error. -/
structure Env where
  patOk : IDeleteOperation → Bool
  selects : IDeleteOperation → String → Bool
  locked : String → Bool

/-- Modelled from the spec: `getFileSelectionSpecifierPathsAsync` (FileGlobSpecifier.ts,
not in src/). "Specifier resolution: expanding a delete operation against the live
filesystem to a concrete set of paths with type metadata": it returns the existing
filesystem entries selected by the (normalized) specifier, each tagged with whether it is
a directory, and propagates a `SelectionError` when the pattern cannot be parsed. -/
def getFileSelectionSpecifierPaths (env : Env) (fs : Fs) (op : IDeleteOperation) :
    Except SelectionError (List (String × Bool)) :=
  if env.patOk op then .ok (fs.filter fun e => env.selects op e.1)
  else .error ⟨op.includeGlob⟩

/-- The resolver's result: the two path sets (JS `Set` keeps insertion order, so each is a
duplicate-free list). -/
structure IGetPathsToDeleteResult where
  filesToDelete : List String
  foldersToDelete : List String
deriving DecidableEq, Repr

/-- JS `Set.prototype.add`: appends the element unless it is already present. -/
def setAdd (l : List String) (p : String) : List String := if p ∈ l then l else l ++ [p]

/-- The partitioning loop body of `_getPathsToDeleteAsync` (DeleteFilesPlugin.ts lines
52-58): each selected entry goes into `foldersToDelete` if it is a directory, otherwise
into `filesToDelete`. -/
def addEntries (acc : IGetPathsToDeleteResult) (entries : List (String × Bool)) :
    IGetPathsToDeleteResult :=
  entries.foldl
    (fun a e =>
      if e.2 then { a with foldersToDelete := setAdd a.foldersToDelete e.1 }
      else { a with filesToDelete := setAdd a.filesToDelete e.1 })
    acc

/-- The per-operation loop of `_getPathsToDeleteAsync` (lines 42-61): normalize the
operation in place, select its paths, merge them into the shared sets; a selection error
aborts the loop. The returned operation list is the caller's operation objects as they
stand after the loop, modelling the in-place normalization. -/
def getPathsLoop (env : Env) (fs : Fs) (rootFolderPath : String) :
    List IDeleteOperation → IGetPathsToDeleteResult →
      List IDeleteOperation × Except SelectionError IGetPathsToDeleteResult
  | [], acc => ([], .ok acc)
  | op :: rest, acc =>
    match getFileSelectionSpecifierPaths env fs
        (normalizeFileSelectionSpecifier rootFolderPath op) with
    | .error e => (normalizeFileSelectionSpecifier rootFolderPath op :: rest, .error e)
    | .ok entries =>
      (normalizeFileSelectionSpecifier rootFolderPath op ::
          (getPathsLoop env fs rootFolderPath rest (addEntries acc entries)).1,
        (getPathsLoop env fs rootFolderPath rest (addEntries acc entries)).2)

/-- `_getPathsToDeleteAsync` (lines 33-64): starts from two empty sets and runs the loop
over all delete operations. -/
def _getPathsToDeleteAsync (env : Env) (fs : Fs) (rootFolderPath : String)
    (deleteOperations : List IDeleteOperation) :
    List IDeleteOperation × Except SelectionError IGetPathsToDeleteResult :=
  getPathsLoop env fs rootFolderPath deleteOperations ⟨[], []⟩

/-- The typed conditions a deletion primitive can raise: the target does not exist, or a
hard I/O failure. -/
inductive FsError where
  | notExist (path : String)
  | hard (path : String)
deriving DecidableEq, Repr

/-- Whether a path currently exists in the filesystem. -/
def pathExists (fs : Fs) (p : String) : Bool := fs.any fun e => e.1 == p

/-- Modelled from the spec: `FileSystem.deleteFileAsync` with `throwIfNotExists` and
`FileSystem.deleteFolderAsync` (node-core-library, not in src/). "A low-level filesystem
deletion primitive distinguishing target-does-not-exist from other I/O errors as a typed
condition": deleting a missing path raises the typed not-exist condition, a locked path
raises a hard error, and otherwise the entry is removed. -/
def fsDeleteEntry (locked : String → Bool) (fs : Fs) (p : String) : Except FsError Fs :=
  if pathExists fs p then
    if locked p then .error (.hard p)
    else .ok (fs.filter fun e => e.1 != p)
  else .error (.notExist p)

/-- A deletion event actually performed against the filesystem. -/
inductive Ev where
  | file (path : String)
  | folder (path : String)
deriving DecidableEq, Repr

/-- The deleter's state: the filesystem, the two outcome counters, the performed deletion
events in order, and the terminal's verbose and normal output lines. -/
structure DelState where
  fs : Fs
  deletedFiles : Nat
  deletedFolders : Nat
  events : List Ev
  verboseLines : List String
  outputLines : List String
deriving DecidableEq, Repr

/-- The deleter's state at batch start: counters zero, no events, no output. -/
def initialDelState (fs : Fs) : DelState :=
  { fs := fs, deletedFiles := 0, deletedFolders := 0, events := [], verboseLines := [],
    outputLines := [] }

/-- The try/catch body for one file (DeleteFilesPlugin.ts lines 90-99): delete, log a
verbose line and count on success; absorb the not-exist condition; rethrow anything
else. -/
def deleteFileStep (locked : String → Bool) (st : DelState) (pathToDelete : String) :
    DelState × Option FsError :=
  match fsDeleteEntry locked st.fs pathToDelete with
  | .ok fs2 =>
    ({ st with
        fs := fs2,
        verboseLines := st.verboseLines ++ ["Deleted \"" ++ pathToDelete ++ "\"."],
        deletedFiles := st.deletedFiles + 1,
        events := st.events ++ [.file pathToDelete] }, none)
  | .error (.notExist _) => (st, none)
  | .error e => (st, some e)

/-- The try/catch body for one folder (lines 109-118), with the folder verbose wording
and the folder counter. -/
def deleteFolderStep (locked : String → Bool) (st : DelState) (folderToDelete : String) :
    DelState × Option FsError :=
  match fsDeleteEntry locked st.fs folderToDelete with
  | .ok fs2 =>
    ({ st with
        fs := fs2,
        verboseLines := st.verboseLines ++ ["Deleted folder \"" ++ folderToDelete ++ "\"."],
        deletedFolders := st.deletedFolders + 1,
        events := st.events ++ [.folder folderToDelete] }, none)
  | .error (.notExist _) => (st, none)
  | .error e => (st, some e)

/-- `Async.forEachAsync` as used here: process the items, stopping at the first item
whose callback rethrows an error, which the whole phase then surfaces. -/
def runPhase (step : DelState → String → DelState × Option FsError) :
    DelState → List String → DelState × Option FsError
  | st, [] => (st, none)
  | st, p :: rest =>
    match step st p with
    | (st2, none) => runPhase step st2 rest
    | (st2, some e) => (st2, some e)

/-- The summary line of DeleteFilesPlugin.ts lines 124-127, with the code's exact
concatenation: a trailing `s` is appended to `file` and to `folder` whenever the
corresponding count differs from 1. -/
def summaryLine (deletedFiles deletedFolders : Nat) : String :=
  "Deleted " ++ toString deletedFiles ++ " file" ++
      (if deletedFiles != 1 then "s" else "") ++ " " ++
    ("and " ++ toString deletedFolders ++ " folder" ++
      (if deletedFolders != 1 then "s" else ""))

/-- The reporter (lines 123-128): one summary line when either counter is positive,
nothing otherwise. -/
def report (deletedFiles deletedFolders : Nat) : List String :=
  if deletedFiles > 0 || deletedFolders > 0 then [summaryLine deletedFiles deletedFolders]
  else []

/-- `_deleteFilesInnerAsync` (lines 78-129): run the file phase; when it completes
without a rethrown error, run the folder phase; when that also completes, emit the
report. A rethrown error aborts the remaining phases and surfaces to the caller. -/
def _deleteFilesInnerAsync (locked : String → Bool)
    (pathsToDelete : IGetPathsToDeleteResult) (fs : Fs) : DelState × Option FsError :=
  match runPhase (deleteFileStep locked) (initialDelState fs) pathsToDelete.filesToDelete with
  | (st, some e) => (st, some e)
  | (st, none) =>
    match runPhase (deleteFolderStep locked) st pathsToDelete.foldersToDelete with
    | (st2, some e) => (st2, some e)
    | (st2, none) =>
      ({ st2 with
          outputLines := st2.outputLines ++ report st2.deletedFiles st2.deletedFolders },
        none)

/-- An error surfaced by the whole run: a selection failure during resolution, or a hard
deletion failure. -/
inductive RunError where
  | selection (e : SelectionError)
  | deletion (e : FsError)
deriving DecidableEq, Repr

/-- What a run of the entry point leaves behind: the caller's operation objects after the
run, the deleter's final state, and the surfaced error if any. -/
structure RunResult where
  opsAfter : List IDeleteOperation
  state : DelState
  err : Option RunError
deriving Repr

/-- `deleteFilesAsync` (lines 66-76): resolution first, then the deleter; a resolution
error surfaces before any deletion occurs. -/
def deleteFilesAsync (env : Env) (fs : Fs) (rootFolderPath : String)
    (deleteOperations : List IDeleteOperation) : RunResult :=
  match _getPathsToDeleteAsync env fs rootFolderPath deleteOperations with
  | (opsAfter, .error e) => ⟨opsAfter, initialDelState fs, some (.selection e)⟩
  | (opsAfter, .ok pathsToDelete) =>
    let r := _deleteFilesInnerAsync env.locked pathsToDelete fs
    ⟨opsAfter, r.1, r.2.map .deletion⟩

/-- The spec's wording of the summary line: "one human-readable line with correct
singular/plural wording for both counts" — singular for a count of 1, plural otherwise. -/
def spec_summaryLine (f d : Nat) : String :=
  "Deleted " ++ toString f ++ " " ++ (if f = 1 then "file" else "files") ++
    " and " ++ toString d ++ " " ++ (if d = 1 then "folder" else "folders")

/-- Whether a deletion event deleted a file (as opposed to a folder). -/
def Ev.isFile : Ev → Bool
  | .file _ => true
  | .folder _ => false

lemma pathExists_false_filter (fs : Fs) (p : String) (h : pathExists fs p = false) :
    (fs.filter fun e => e.1 != p) = fs := by
  rw [pathExists, List.any_eq_false] at h
  apply List.filter_eq_self.mpr
  intro e he
  have hb : (e.1 == p) = false := by
    rcases Bool.eq_false_or_eq_true (e.1 == p) with hb | hb
    · exact absurd hb (h e he)
    · exact hb
  simp [bne, hb]

lemma deleteFileStep_missing (locked : String → Bool) (st : DelState) (p : String)
    (h : pathExists st.fs p = false) : deleteFileStep locked st p = (st, none) := by
  simp [deleteFileStep, fsDeleteEntry, h]

lemma deleteFolderStep_missing (locked : String → Bool) (st : DelState) (p : String)
    (h : pathExists st.fs p = false) : deleteFolderStep locked st p = (st, none) := by
  simp [deleteFolderStep, fsDeleteEntry, h]

lemma deleteFileStep_events (locked : String → Bool) (st : DelState) (p : String) :
    ((deleteFileStep locked st p).1).events = st.events ∨
      ((deleteFileStep locked st p).1).events = st.events ++ [Ev.file p] := by
  cases h : fsDeleteEntry locked st.fs p with
  | ok fs2 => right; simp [deleteFileStep, h]
  | error e => cases e <;> (left; simp [deleteFileStep, h])

lemma deleteFolderStep_events (locked : String → Bool) (st : DelState) (p : String) :
    ((deleteFolderStep locked st p).1).events = st.events ∨
      ((deleteFolderStep locked st p).1).events = st.events ++ [Ev.folder p] := by
  cases h : fsDeleteEntry locked st.fs p with
  | ok fs2 => right; simp [deleteFolderStep, h]
  | error e => cases e <;> (left; simp [deleteFolderStep, h])

lemma runPhase_file_events (locked : String → Bool) :
    ∀ (l : List String) (st : DelState),
      ∃ evs : List Ev,
        ((runPhase (deleteFileStep locked) st l).1).events = st.events ++ evs ∧
          ∀ e ∈ evs, e.isFile = true := by
  intro l
  induction l with
  | nil => intro st; exact ⟨[], by simp [runPhase], by simp⟩
  | cons p rest ih =>
    intro st
    rw [runPhase]
    rcases hstep : deleteFileStep locked st p with ⟨st2, o⟩
    have hev : st2.events = st.events ∨ st2.events = st.events ++ [Ev.file p] := by
      have := deleteFileStep_events locked st p
      rw [hstep] at this
      exact this
    cases o with
    | some e =>
      rcases hev with hev | hev
      · exact ⟨[], by simpa using hev, by simp⟩
      · exact ⟨[Ev.file p], by simpa using hev, by simp [Ev.isFile]⟩
    | none =>
      rcases ih st2 with ⟨evs, hevs, hall⟩
      rcases hev with hev | hev
      · exact ⟨evs, by rw [hevs, hev], hall⟩
      · refine ⟨Ev.file p :: evs, ?_, ?_⟩
        · rw [hevs, hev, List.append_assoc]; rfl
        · intro e he
          rcases List.mem_cons.mp he with h | h
          · rw [h]; rfl
          · exact hall e h

lemma runPhase_folder_events (locked : String → Bool) :
    ∀ (l : List String) (st : DelState),
      ∃ evs : List Ev,
        ((runPhase (deleteFolderStep locked) st l).1).events = st.events ++ evs ∧
          ∀ e ∈ evs, e.isFile = false := by
  intro l
  induction l with
  | nil => intro st; exact ⟨[], by simp [runPhase], by simp⟩
  | cons p rest ih =>
    intro st
    rw [runPhase]
    rcases hstep : deleteFolderStep locked st p with ⟨st2, o⟩
    have hev : st2.events = st.events ∨ st2.events = st.events ++ [Ev.folder p] := by
      have := deleteFolderStep_events locked st p
      rw [hstep] at this
      exact this
    cases o with
    | some e =>
      rcases hev with hev | hev
      · exact ⟨[], by simpa using hev, by simp⟩
      · exact ⟨[Ev.folder p], by simpa using hev, by simp [Ev.isFile]⟩
    | none =>
      rcases ih st2 with ⟨evs, hevs, hall⟩
      rcases hev with hev | hev
      · exact ⟨evs, by rw [hevs, hev], hall⟩
      · refine ⟨Ev.folder p :: evs, ?_, ?_⟩
        · rw [hevs, hev, List.append_assoc]; rfl
        · intro e he
          rcases List.mem_cons.mp he with h | h
          · rw [h]; rfl
          · exact hall e h

lemma inner_file_err {locked : String → Bool} {paths : IGetPathsToDeleteResult} {fs : Fs}
    {st : DelState} {e : FsError}
    (h : runPhase (deleteFileStep locked) (initialDelState fs) paths.filesToDelete =
      (st, some e)) :
    _deleteFilesInnerAsync locked paths fs = (st, some e) := by
  rw [_deleteFilesInnerAsync, h]

lemma inner_folder_err {locked : String → Bool} {paths : IGetPathsToDeleteResult} {fs : Fs}
    {st st2 : DelState} {e : FsError}
    (h1 : runPhase (deleteFileStep locked) (initialDelState fs) paths.filesToDelete =
      (st, none))
    (h2 : runPhase (deleteFolderStep locked) st paths.foldersToDelete = (st2, some e)) :
    _deleteFilesInnerAsync locked paths fs = (st2, some e) := by
  rw [_deleteFilesInnerAsync, h1]
  simp only [h2]

lemma inner_ok {locked : String → Bool} {paths : IGetPathsToDeleteResult} {fs : Fs}
    {st st2 : DelState}
    (h1 : runPhase (deleteFileStep locked) (initialDelState fs) paths.filesToDelete =
      (st, none))
    (h2 : runPhase (deleteFolderStep locked) st paths.foldersToDelete = (st2, none)) :
    _deleteFilesInnerAsync locked paths fs =
      ({ st2 with
          outputLines := st2.outputLines ++ report st2.deletedFiles st2.deletedFolders },
        none) := by
  rw [_deleteFilesInnerAsync, h1]
  simp only [h2]

lemma deleter_events_split (locked : String → Bool) (paths : IGetPathsToDeleteResult)
    (fs : Fs) :
    ∃ fileEvs folderEvs : List Ev,
      ((_deleteFilesInnerAsync locked paths fs).1).events = fileEvs ++ folderEvs ∧
        (∀ e ∈ fileEvs, e.isFile = true) ∧ ∀ e ∈ folderEvs, e.isFile = false := by
  rcases h1 : runPhase (deleteFileStep locked) (initialDelState fs) paths.filesToDelete
    with ⟨st, o⟩
  have hF : ∃ evs, st.events = evs ∧ ∀ e ∈ evs, e.isFile = true := by
    rcases runPhase_file_events locked paths.filesToDelete (initialDelState fs)
      with ⟨evs, hevs, hall⟩
    rw [h1] at hevs
    exact ⟨evs, by simpa [initialDelState] using hevs, hall⟩
  rcases hF with ⟨fileEvs, hfe, hfall⟩
  cases o with
  | some e =>
    refine ⟨fileEvs, [], ?_, hfall, by simp⟩
    rw [inner_file_err h1]
    simpa using hfe
  | none =>
    rcases h2 : runPhase (deleteFolderStep locked) st paths.foldersToDelete with ⟨st2, o2⟩
    have hG : ∃ evs, st2.events = fileEvs ++ evs ∧ ∀ e ∈ evs, e.isFile = false := by
      rcases runPhase_folder_events locked paths.foldersToDelete st with ⟨evs, hevs, hall⟩
      rw [h2] at hevs
      exact ⟨evs, by rw [hevs, hfe], hall⟩
    rcases hG with ⟨folderEvs, hge, hgall⟩
    cases o2 with
    | some e =>
      refine ⟨fileEvs, folderEvs, ?_, hfall, hgall⟩
      rw [inner_folder_err h1 h2]
      exact hge
    | none =>
      refine ⟨fileEvs, folderEvs, ?_, hfall, hgall⟩
      rw [inner_ok h1 h2]
      exact hge

lemma runPhase_cons_none {step : DelState → String → DelState × Option FsError}
    {st st2 : DelState} {p : String} {rest : List String} (h : step st p = (st2, none)) :
    runPhase step st (p :: rest) = runPhase step st2 rest := by
  rw [runPhase, h]

lemma runPhase_cons_err {step : DelState → String → DelState × Option FsError}
    {st st2 : DelState} {p : String} {e : FsError} {rest : List String}
    (h : step st p = (st2, some e)) : runPhase step st (p :: rest) = (st2, some e) := by
  rw [runPhase, h]

lemma deleteFileStep_counters (locked : String → Bool) (st : DelState) (p : String) :
    ((deleteFileStep locked st p).1).deletedFiles ≤ st.deletedFiles + 1 ∧
      ((deleteFileStep locked st p).1).deletedFolders = st.deletedFolders := by
  cases h : fsDeleteEntry locked st.fs p with
  | ok fs2 => simp [deleteFileStep, h]
  | error e => cases e <;> simp [deleteFileStep, h]

lemma deleteFolderStep_counters (locked : String → Bool) (st : DelState) (p : String) :
    ((deleteFolderStep locked st p).1).deletedFolders ≤ st.deletedFolders + 1 ∧
      ((deleteFolderStep locked st p).1).deletedFiles = st.deletedFiles := by
  cases h : fsDeleteEntry locked st.fs p with
  | ok fs2 => simp [deleteFolderStep, h]
  | error e => cases e <;> simp [deleteFolderStep, h]

lemma runPhase_file_counters (locked : String → Bool) :
    ∀ (l : List String) (st : DelState),
      ((runPhase (deleteFileStep locked) st l).1).deletedFiles ≤ st.deletedFiles + l.length ∧
        ((runPhase (deleteFileStep locked) st l).1).deletedFolders = st.deletedFolders := by
  intro l
  induction l with
  | nil => intro st; simp [runPhase]
  | cons p rest ih =>
    intro st
    rcases hstep : deleteFileStep locked st p with ⟨st2, o⟩
    have hc := deleteFileStep_counters locked st p
    rw [hstep] at hc
    dsimp only at hc
    cases o with
    | some e =>
      rw [runPhase_cons_err hstep]
      exact ⟨Nat.le_trans hc.1 (by simp only [List.length_cons]; omega), hc.2⟩
    | none =>
      rw [runPhase_cons_none hstep]
      rcases ih st2 with ⟨ih1, ih2⟩
      refine ⟨Nat.le_trans ih1 ?_, by rw [ih2, hc.2]⟩
      have := hc.1
      simp only [List.length_cons]
      omega

lemma runPhase_folder_counters (locked : String → Bool) :
    ∀ (l : List String) (st : DelState),
      ((runPhase (deleteFolderStep locked) st l).1).deletedFolders ≤
          st.deletedFolders + l.length ∧
        ((runPhase (deleteFolderStep locked) st l).1).deletedFiles = st.deletedFiles := by
  intro l
  induction l with
  | nil => intro st; simp [runPhase]
  | cons p rest ih =>
    intro st
    rcases hstep : deleteFolderStep locked st p with ⟨st2, o⟩
    have hc := deleteFolderStep_counters locked st p
    rw [hstep] at hc
    dsimp only at hc
    cases o with
    | some e =>
      rw [runPhase_cons_err hstep]
      exact ⟨Nat.le_trans hc.1 (by simp only [List.length_cons]; omega), hc.2⟩
    | none =>
      rw [runPhase_cons_none hstep]
      rcases ih st2 with ⟨ih1, ih2⟩
      refine ⟨Nat.le_trans ih1 ?_, by rw [ih2, hc.2]⟩
      have := hc.1
      simp only [List.length_cons]
      omega

/-- C1: for the batch with filesToDelete containing the two files of /proj/build and
foldersToDelete containing /proj/build, all three present and no deletion failing, the
deleter counts 2 files and 1 folder deleted, the run raises no error, and the reporter
emits exactly the summary line "Deleted 2 files and 1 folder". -/
theorem scenario_two_files_one_folder :
    (_deleteFilesInnerAsync (fun _ => false)
        ⟨["/proj/build/a.txt", "/proj/build/b.txt"], ["/proj/build"]⟩
        [("/proj/build/a.txt", false), ("/proj/build/b.txt", false),
          ("/proj/build", true)]).1.deletedFiles = 2 ∧
      (_deleteFilesInnerAsync (fun _ => false)
        ⟨["/proj/build/a.txt", "/proj/build/b.txt"], ["/proj/build"]⟩
        [("/proj/build/a.txt", false), ("/proj/build/b.txt", false),
          ("/proj/build", true)]).1.deletedFolders = 1 ∧
      (_deleteFilesInnerAsync (fun _ => false)
        ⟨["/proj/build/a.txt", "/proj/build/b.txt"], ["/proj/build"]⟩
        [("/proj/build/a.txt", false), ("/proj/build/b.txt", false),
          ("/proj/build", true)]).1.outputLines = ["Deleted 2 files and 1 folder"] ∧
      (_deleteFilesInnerAsync (fun _ => false)
        ⟨["/proj/build/a.txt", "/proj/build/b.txt"], ["/proj/build"]⟩
        [("/proj/build/a.txt", false), ("/proj/build/b.txt", false),
          ("/proj/build", true)]).2 = none := by
  decide

/-- C2: deleting a path that does not exist at deletion time is a complete no-op for that
path: the per-item body raises no error (the missing-target condition is absorbed, so it
never escalates to the caller) and leaves the deleter's state — in particular both
counters — unchanged, for files and for folders alike. -/
theorem missing_target_is_noop (locked : String → Bool) (st : DelState) (p : String)
    (h : pathExists st.fs p = false) :
    deleteFileStep locked st p = (st, none) ∧ deleteFolderStep locked st p = (st, none) :=
  ⟨deleteFileStep_missing locked st p h, deleteFolderStep_missing locked st p h⟩

theorem missing_target_is_noop_witness :
    pathExists ([("/proj/other.txt", false)] : Fs) "/proj/missing.txt" = false ∧
      (deleteFileStep (fun _ => false) (initialDelState [("/proj/other.txt", false)])
          "/proj/missing.txt" =
          (initialDelState [("/proj/other.txt", false)], none) ∧
        deleteFolderStep (fun _ => false) (initialDelState [("/proj/other.txt", false)])
          "/proj/missing.txt" =
          (initialDelState [("/proj/other.txt", false)], none)) :=
  ⟨by decide,
    missing_target_is_noop (fun _ => false) (initialDelState [("/proj/other.txt", false)])
      "/proj/missing.txt" (by decide)⟩

/-- C3: in every run of the deleter, the file phase strictly precedes the folder phase:
whenever the event at position i of the performed-deletion trace is a folder deletion and
the event at position j is a file deletion, j comes before i — no folder deletion starts
before every file deletion has completed. -/
theorem file_phase_precedes_folder_phase (locked : String → Bool)
    (paths : IGetPathsToDeleteResult) (fs : Fs) :
    ∀ i j (hi : i < ((_deleteFilesInnerAsync locked paths fs).1).events.length)
      (hj : j < ((_deleteFilesInnerAsync locked paths fs).1).events.length),
      (((_deleteFilesInnerAsync locked paths fs).1).events.get ⟨i, hi⟩).isFile = false →
      (((_deleteFilesInnerAsync locked paths fs).1).events.get ⟨j, hj⟩).isFile = true →
      j < i := by
  rcases deleter_events_split locked paths fs with ⟨F, G, hsplit, hF, hG⟩
  intro i j hi hj hfolder hfile
  rw [List.get_eq_getElem] at hfolder hfile
  have hi2 (h : i < F.length) : False := by
    have hmem : F[i] ∈ F := List.getElem_mem h
    have : ((_deleteFilesInnerAsync locked paths fs).1).events[i] = F[i] := by
      simp only [hsplit]
      exact List.getElem_append_left h
    rw [this] at hfolder
    rw [hF F[i] hmem] at hfolder
    exact Bool.true_eq_false.mp hfolder
  have hj2 (h : F.length ≤ j) : False := by
    have hj3 : j - F.length < G.length := by
      have := hj
      rw [hsplit, List.length_append] at this
      omega
    have hmem : G[j - F.length] ∈ G := List.getElem_mem hj3
    have : ((_deleteFilesInnerAsync locked paths fs).1).events[j] = G[j - F.length] := by
      simp only [hsplit]
      exact List.getElem_append_right h
    rw [this] at hfile
    rw [hG G[j - F.length] hmem] at hfile
    exact Bool.false_eq_true.mp hfile
  rcases Nat.lt_or_ge j F.length with hj4 | hj4
  · rcases Nat.lt_or_ge i F.length with hi4 | hi4
    · exact absurd (hi2 hi4) (fun h => h)
    · omega
  · exact absurd (hj2 hj4) (fun h => h)

/-- C10: the outcome counters are bounded by the input sets: in every run of the deleter
(aborted by an error or not), the final count of deleted files is at most the number of
paths in filesToDelete and the final count of deleted folders is at most the number of
paths in foldersToDelete. -/
theorem deleter_counters_bounded (locked : String → Bool)
    (paths : IGetPathsToDeleteResult) (fs : Fs) :
    ((_deleteFilesInnerAsync locked paths fs).1).deletedFiles ≤
        paths.filesToDelete.length ∧
      ((_deleteFilesInnerAsync locked paths fs).1).deletedFolders ≤
        paths.foldersToDelete.length := by
  rcases h1 : runPhase (deleteFileStep locked) (initialDelState fs) paths.filesToDelete
    with ⟨st, o⟩
  have hc1 := runPhase_file_counters locked paths.filesToDelete (initialDelState fs)
  rw [h1] at hc1
  simp only [initialDelState] at hc1
  cases o with
  | some e =>
    rw [inner_file_err h1]
    exact ⟨by simpa using hc1.1, by rw [hc1.2]; exact Nat.zero_le _⟩
  | none =>
    rcases h2 : runPhase (deleteFolderStep locked) st paths.foldersToDelete with ⟨st2, o2⟩
    have hc2 := runPhase_folder_counters locked paths.foldersToDelete st
    rw [h2] at hc2
    have hfiles : st2.deletedFiles ≤ paths.filesToDelete.length := by
      rw [hc2.2]; simpa using hc1.1
    have hfolders : st2.deletedFolders ≤ paths.foldersToDelete.length := by
      have := hc2.1
      rw [hc1.2] at this
      simpa using this
    cases o2 with
    | some e =>
      rw [inner_folder_err h1 h2]
      exact ⟨hfiles, hfolders⟩
    | none =>
      rw [inner_ok h1 h2]
      exact ⟨hfiles, hfolders⟩

/-- C4 counterexample: a batch where the only file is locked (its deletion fails with a
hard, non-missing error) and the folder exists and would be deletable; the run surfaces
the hard error, performs no deletion at all, and in particular the folder-deletion phase
does not proceed: the folder counter stays 0 and the folder is still present. -/
theorem hard_file_error_skips_folder_phase :
    (_deleteFilesInnerAsync (fun p => p == "/proj/locked.txt")
        ⟨["/proj/locked.txt"], ["/proj/build"]⟩
        [("/proj/locked.txt", false), ("/proj/build", true)]).2 =
        some (FsError.hard "/proj/locked.txt") ∧
      (_deleteFilesInnerAsync (fun p => p == "/proj/locked.txt")
        ⟨["/proj/locked.txt"], ["/proj/build"]⟩
        [("/proj/locked.txt", false), ("/proj/build", true)]).1.deletedFolders = 0 ∧
      (_deleteFilesInnerAsync (fun p => p == "/proj/locked.txt")
        ⟨["/proj/locked.txt"], ["/proj/build"]⟩
        [("/proj/locked.txt", false), ("/proj/build", true)]).1.events = [] ∧
      ("/proj/build", true) ∈
        (_deleteFilesInnerAsync (fun p => p == "/proj/locked.txt")
          ⟨["/proj/locked.txt"], ["/proj/build"]⟩
          [("/proj/locked.txt", false), ("/proj/build", true)]).1.fs := by
  decide

/-- C4 (amended): the folder-deletion phase proceeds only when the file-deletion phase
completes without a hard error. A hard file-deletion failure aborts the run with exactly
the file phase's state, before any folder deletion; file deletions that fail only because
the target is missing are absorbed and do not prevent the folder phase (a batch whose
files are all absent behaves exactly like the batch with no files at all). -/
theorem folder_phase_gated_on_file_phase (locked : String → Bool)
    (paths : IGetPathsToDeleteResult) (fs : Fs) :
    (∀ st e,
        runPhase (deleteFileStep locked) (initialDelState fs) paths.filesToDelete =
          (st, some e) →
        _deleteFilesInnerAsync locked paths fs = (st, some e)) ∧
      ((∀ p ∈ paths.filesToDelete, pathExists fs p = false) →
        _deleteFilesInnerAsync locked paths fs =
          _deleteFilesInnerAsync locked ⟨[], paths.foldersToDelete⟩ fs) := by
  constructor
  · intro st e h
    exact inner_file_err h
  · intro hall
    have hrun : ∀ l, (∀ p ∈ l, pathExists fs p = false) →
        runPhase (deleteFileStep locked) (initialDelState fs) l =
          (initialDelState fs, none) := by
      intro l
      induction l with
      | nil => intro _; rw [runPhase]
      | cons p rest ih =>
        intro h
        have hp : pathExists (initialDelState fs).fs p = false := h p (by simp)
        rw [runPhase_cons_none (deleteFileStep_missing locked (initialDelState fs) p hp)]
        exact ih fun q hq => h q (by simp [hq])
    rw [_deleteFilesInnerAsync, hrun paths.filesToDelete hall, _deleteFilesInnerAsync]
    rfl

theorem folder_phase_gated_on_file_phase_witness :
    (_deleteFilesInnerAsync (fun p => p == "/x")
        ⟨["/x"], ["/d"]⟩ [("/x", false), ("/d", true)] =
        (initialDelState [("/x", false), ("/d", true)], some (FsError.hard "/x"))) ∧
      _deleteFilesInnerAsync (fun _ => false) ⟨["/gone"], ["/d"]⟩ [("/d", true)] =
        _deleteFilesInnerAsync (fun _ => false) ⟨[], ["/d"]⟩ [("/d", true)] :=
  ⟨(folder_phase_gated_on_file_phase (fun p => p == "/x")
      ⟨["/x"], ["/d"]⟩ [("/x", false), ("/d", true)]).1
      (initialDelState [("/x", false), ("/d", true)]) (FsError.hard "/x") (by decide),
    (folder_phase_gated_on_file_phase (fun _ => false)
      ⟨["/gone"], ["/d"]⟩ [("/d", true)]).2 (by decide)⟩

theorem file_phase_precedes_folder_phase_witness :
    2 < ((_deleteFilesInnerAsync (fun _ => false) ⟨["/a", "/b"], ["/d"]⟩
        [("/a", false), ("/b", false), ("/d", true)]).1).events.length ∧
      (0 : Nat) < 2 :=
  ⟨by decide,
    file_phase_precedes_folder_phase (fun _ => false) ⟨["/a", "/b"], ["/d"]⟩
      [("/a", false), ("/b", false), ("/d", true)] 2 0 (by decide) (by decide)
      (by decide) (by decide)⟩

lemma getPathsLoop_cons_err {env : Env} {fs : Fs} {root : String}
    {op : IDeleteOperation} {rest : List IDeleteOperation}
    {acc : IGetPathsToDeleteResult} {e : SelectionError}
    (h : getFileSelectionSpecifierPaths env fs
        (normalizeFileSelectionSpecifier root op) = .error e) :
    getPathsLoop env fs root (op :: rest) acc =
      (normalizeFileSelectionSpecifier root op :: rest, .error e) := by
  rw [getPathsLoop, h]

lemma getPathsLoop_cons_ok {env : Env} {fs : Fs} {root : String}
    {op : IDeleteOperation} {rest : List IDeleteOperation}
    {acc : IGetPathsToDeleteResult} {entries : List (String × Bool)}
    (h : getFileSelectionSpecifierPaths env fs
        (normalizeFileSelectionSpecifier root op) = .ok entries) :
    getPathsLoop env fs root (op :: rest) acc =
      (normalizeFileSelectionSpecifier root op ::
          (getPathsLoop env fs root rest (addEntries acc entries)).1,
        (getPathsLoop env fs root rest (addEntries acc entries)).2) := by
  rw [getPathsLoop, h]

/-- C6: when resolution fails with a SelectionError (propagated from the selector for
some operation), the whole run aborts before any deletion occurs: the filesystem is
untouched, no deletion event was performed, both counters are zero, and the selection
error is the surfaced error. (Resolution itself produces only the two path sets; in the
embedding it takes the filesystem purely as input, so it can mutate nothing regardless of
outcome.) -/
theorem selection_error_aborts_run (env : Env) (fs : Fs) (root : String)
    (ops opsAfter : List IDeleteOperation) (e : SelectionError)
    (h : _getPathsToDeleteAsync env fs root ops = (opsAfter, .error e)) :
    (deleteFilesAsync env fs root ops).state.fs = fs ∧
      (deleteFilesAsync env fs root ops).state.events = [] ∧
      (deleteFilesAsync env fs root ops).state.deletedFiles = 0 ∧
      (deleteFilesAsync env fs root ops).state.deletedFolders = 0 ∧
      (deleteFilesAsync env fs root ops).err = some (.selection e) := by
  rw [deleteFilesAsync, h]
  exact ⟨rfl, rfl, rfl, rfl, rfl⟩

theorem selection_error_aborts_run_witness :
    (_getPathsToDeleteAsync ⟨fun _ => false, fun _ _ => false, fun _ => false⟩
        [("/proj/a", false)] "/proj" [⟨"build", "**"⟩] =
        ([⟨"/proj/build", "**"⟩], .error ⟨"**"⟩)) ∧
      ((deleteFilesAsync ⟨fun _ => false, fun _ _ => false, fun _ => false⟩
          [("/proj/a", false)] "/proj" [⟨"build", "**"⟩]).state.fs =
          [("/proj/a", false)] ∧
        (deleteFilesAsync ⟨fun _ => false, fun _ _ => false, fun _ => false⟩
          [("/proj/a", false)] "/proj" [⟨"build", "**"⟩]).state.events = [] ∧
        (deleteFilesAsync ⟨fun _ => false, fun _ _ => false, fun _ => false⟩
          [("/proj/a", false)] "/proj" [⟨"build", "**"⟩]).state.deletedFiles = 0 ∧
        (deleteFilesAsync ⟨fun _ => false, fun _ _ => false, fun _ => false⟩
          [("/proj/a", false)] "/proj" [⟨"build", "**"⟩]).state.deletedFolders = 0 ∧
        (deleteFilesAsync ⟨fun _ => false, fun _ _ => false, fun _ => false⟩
          [("/proj/a", false)] "/proj" [⟨"build", "**"⟩]).err =
          some (.selection ⟨"**"⟩)) :=
  ⟨rfl,
    selection_error_aborts_run ⟨fun _ => false, fun _ _ => false, fun _ => false⟩
      [("/proj/a", false)] "/proj" [⟨"build", "**"⟩] [⟨"/proj/build", "**"⟩] ⟨"**"⟩
      rfl⟩

lemma summaryLine_eq_spec (f d : Nat) : summaryLine f d = spec_summaryLine f d := by
  have hDel : ("Deleted " : String).data = ['D', 'e', 'l', 'e', 't', 'e', 'd', ' '] := rfl
  have hFile : (" file" : String).data = [' ', 'f', 'i', 'l', 'e'] := rfl
  have hS : ("s" : String).data = ['s'] := rfl
  have hE : ("" : String).data = [] := rfl
  have hSp : (" " : String).data = [' '] := rfl
  have hAnd : ("and " : String).data = ['a', 'n', 'd', ' '] := rfl
  have hFolder : (" folder" : String).data = [' ', 'f', 'o', 'l', 'd', 'e', 'r'] := rfl
  have hFile2 : ("file" : String).data = ['f', 'i', 'l', 'e'] := rfl
  have hFiles : ("files" : String).data = ['f', 'i', 'l', 'e', 's'] := rfl
  have hAnd2 : (" and " : String).data = [' ', 'a', 'n', 'd', ' '] := rfl
  have hFolder2 : ("folder" : String).data = ['f', 'o', 'l', 'd', 'e', 'r'] := rfl
  have hFolders : ("folders" : String).data = ['f', 'o', 'l', 'd', 'e', 'r', 's'] := rfl
  apply String.ext
  rcases eq_or_ne f 1 with hf | hf <;> rcases eq_or_ne d 1 with hd | hd <;>
    simp [summaryLine, spec_summaryLine, hf, hd, bne, String.data_append, hDel, hFile,
      hS, hE, hSp, hAnd, hFolder, hFile2, hFiles, hAnd2, hFolder2, hFolders]

/-- C7: the reporter emits nothing when both counters are zero, and otherwise emits
exactly one summary line, equal to the line the spec describes: singular wording for a
count of 1 and plural wording otherwise, separately for the file count and the folder
count. -/
theorem reporter_contract (f d : Nat) :
    (f = 0 ∧ d = 0 → report f d = []) ∧
      (¬(f = 0 ∧ d = 0) → report f d = [spec_summaryLine f d]) := by
  constructor
  · rintro ⟨hf, hd⟩
    simp [report, hf, hd]
  · intro h
    have hb : (f > 0 || d > 0) = true := by
      simp only [Bool.or_eq_true, decide_eq_true_eq]
      omega
    rw [report, if_pos hb, summaryLine_eq_spec]

theorem reporter_contract_witness :
    report 0 0 = [] ∧ report 2 1 = [spec_summaryLine 2 1] :=
  ⟨(reporter_contract 0 0).1 ⟨rfl, rfl⟩, (reporter_contract 2 1).2 (by decide)⟩

lemma getPathsLoop_opsAfter (env : Env) (fs : Fs) (root : String) :
    ∀ (ops : List IDeleteOperation) (acc : IGetPathsToDeleteResult)
      (r : IGetPathsToDeleteResult),
      (getPathsLoop env fs root ops acc).2 = .ok r →
      (getPathsLoop env fs root ops acc).1 =
        ops.map (normalizeFileSelectionSpecifier root) := by
  intro ops
  induction ops with
  | nil => intro acc r _; rw [getPathsLoop]; rfl
  | cons op rest ih =>
    intro acc r h
    cases hsel : getFileSelectionSpecifierPaths env fs
        (normalizeFileSelectionSpecifier root op) with
    | error e =>
      rw [getPathsLoop_cons_err hsel] at h
      exact absurd h (by simp)
    | ok entries =>
      rw [getPathsLoop_cons_ok hsel] at h ⊢
      rw [List.map_cons]
      exact congrArg _ (ih (addEntries acc entries) r h)

/-- C9: resolution rewrites the caller's delete-operation objects in place: after a
(successful) resolution, the operation list the caller observes holds exactly the
normalized operations — each source path resolved against the root folder — and
normalization is not the identity, so the caller's operations really are modified as a
side effect of the run rather than copied. -/
theorem resolver_normalizes_in_place (env : Env) (fs : Fs) (root : String)
    (ops opsAfter : List IDeleteOperation) (r : IGetPathsToDeleteResult)
    (h : _getPathsToDeleteAsync env fs root ops = (opsAfter, .ok r)) :
    opsAfter = ops.map (normalizeFileSelectionSpecifier root) ∧
      normalizeFileSelectionSpecifier "/proj" ⟨"build", "**"⟩ ≠
        (⟨"build", "**"⟩ : IDeleteOperation) := by
  constructor
  · have h1 : (getPathsLoop env fs root ops ⟨[], []⟩).1 = opsAfter := by
      rw [_getPathsToDeleteAsync] at h
      rw [h]
    have h2 : (getPathsLoop env fs root ops ⟨[], []⟩).2 = .ok r := by
      rw [_getPathsToDeleteAsync] at h
      rw [h]
    rw [← h1]
    exact getPathsLoop_opsAfter env fs root ops ⟨[], []⟩ r h2
  · decide

theorem resolver_normalizes_in_place_witness :
    (_getPathsToDeleteAsync ⟨fun _ => true, fun _ _ => false, fun _ => false⟩ []
        "/proj" [⟨"build", "**"⟩] = ([⟨"/proj/build", "**"⟩], .ok ⟨[], []⟩)) ∧
      ([⟨"/proj/build", "**"⟩] : List IDeleteOperation) =
          ([⟨"build", "**"⟩] : List IDeleteOperation).map
            (normalizeFileSelectionSpecifier "/proj") ∧
        normalizeFileSelectionSpecifier "/proj" ⟨"build", "**"⟩ ≠
          (⟨"build", "**"⟩ : IDeleteOperation) :=
  ⟨rfl,
    resolver_normalizes_in_place ⟨fun _ => true, fun _ _ => false, fun _ => false⟩ []
      "/proj" [⟨"build", "**"⟩] [⟨"/proj/build", "**"⟩] ⟨[], []⟩ rfl⟩

lemma mem_setAdd (l : List String) (p q : String) :
    q ∈ setAdd l p ↔ q = p ∨ q ∈ l := by
  rw [setAdd]
  split
  · rename_i h
    constructor
    · exact fun hq => Or.inr hq
    · rintro (rfl | hq)
      · exact h
      · exact hq
  · simp only [List.mem_append, List.mem_singleton]
    exact or_comm

lemma nodup_setAdd (l : List String) (p : String) (h : l.Nodup) : (setAdd l p).Nodup := by
  rw [setAdd]
  split
  · exact h
  · rename_i hp
    simp [List.nodup_append, h, hp]

lemma sel_ok_iff {env : Env} {fs : Fs} {op : IDeleteOperation}
    {entries : List (String × Bool)} :
    getFileSelectionSpecifierPaths env fs op = .ok entries ↔
      env.patOk op = true ∧ entries = fs.filter fun e => env.selects op e.1 := by
  rw [getFileSelectionSpecifierPaths]
  split
  · rename_i h
    constructor
    · intro he
      exact ⟨h, (Except.ok.injEq _ _).mp he |>.symm⟩
    · rintro ⟨-, rfl⟩
      rfl
  · rename_i h
    constructor
    · intro he
      exact absurd he (by simp)
    · rintro ⟨hp, -⟩
      exact absurd hp (by simpa using h)

lemma addEntries_nil (acc : IGetPathsToDeleteResult) : addEntries acc [] = acc := rfl

lemma addEntries_cons_folder (acc : IGetPathsToDeleteResult) (q : String)
    (entries : List (String × Bool)) :
    addEntries acc ((q, true) :: entries) =
      addEntries { acc with foldersToDelete := setAdd acc.foldersToDelete q } entries := by
  rw [addEntries, addEntries, List.foldl_cons]
  rfl

lemma addEntries_cons_file (acc : IGetPathsToDeleteResult) (q : String)
    (entries : List (String × Bool)) :
    addEntries acc ((q, false) :: entries) =
      addEntries { acc with filesToDelete := setAdd acc.filesToDelete q } entries := by
  rw [addEntries, addEntries, List.foldl_cons]
  rfl

lemma mem_addEntries_files (p : String) :
    ∀ (entries : List (String × Bool)) (acc : IGetPathsToDeleteResult),
      (p ∈ (addEntries acc entries).filesToDelete ↔
        p ∈ acc.filesToDelete ∨ (p, false) ∈ entries) := by
  intro entries
  induction entries with
  | nil => intro acc; simp [addEntries_nil]
  | cons e rest ih =>
    intro acc
    obtain ⟨q, b⟩ := e
    cases b with
    | true =>
      rw [addEntries_cons_folder, ih]
      simp only [List.mem_cons]
      constructor
      · rintro (h | h)
        · exact Or.inl h
        · exact Or.inr (Or.inr h)
      · rintro (h | h | h)
        · exact Or.inl h
        · exact absurd h (by simp)
        · exact Or.inr h
    | false =>
      rw [addEntries_cons_file, ih]
      simp only [mem_setAdd, List.mem_cons, Prod.mk.injEq]
      constructor
      · rintro ((rfl | h) | h)
        · exact Or.inr (Or.inl (by simp))
        · exact Or.inl h
        · exact Or.inr (Or.inr h)
      · rintro (h | h | h)
        · exact Or.inl (Or.inr h)
        · exact Or.inl (Or.inl h.1)
        · exact Or.inr h

lemma mem_addEntries_folders (p : String) :
    ∀ (entries : List (String × Bool)) (acc : IGetPathsToDeleteResult),
      (p ∈ (addEntries acc entries).foldersToDelete ↔
        p ∈ acc.foldersToDelete ∨ (p, true) ∈ entries) := by
  intro entries
  induction entries with
  | nil => intro acc; simp [addEntries_nil]
  | cons e rest ih =>
    intro acc
    obtain ⟨q, b⟩ := e
    cases b with
    | false =>
      rw [addEntries_cons_file, ih]
      simp only [List.mem_cons]
      constructor
      · rintro (h | h)
        · exact Or.inl h
        · exact Or.inr (Or.inr h)
      · rintro (h | h | h)
        · exact Or.inl h
        · exact absurd h (by simp)
        · exact Or.inr h
    | true =>
      rw [addEntries_cons_folder, ih]
      simp only [mem_setAdd, List.mem_cons, Prod.mk.injEq]
      constructor
      · rintro ((rfl | h) | h)
        · exact Or.inr (Or.inl (by simp))
        · exact Or.inl h
        · exact Or.inr (Or.inr h)
      · rintro (h | h | h)
        · exact Or.inl (Or.inr h)
        · exact Or.inl (Or.inl h.1)
        · exact Or.inr h

lemma nodup_addEntries (entries : List (String × Bool)) :
    ∀ (acc : IGetPathsToDeleteResult), acc.filesToDelete.Nodup →
      acc.foldersToDelete.Nodup →
      ((addEntries acc entries).filesToDelete.Nodup ∧
        (addEntries acc entries).foldersToDelete.Nodup) := by
  induction entries with
  | nil => intro acc h1 h2; exact ⟨h1, h2⟩
  | cons e rest ih =>
    intro acc h1 h2
    obtain ⟨q, b⟩ := e
    cases b with
    | true =>
      rw [addEntries_cons_folder]
      exact ih _ h1 (nodup_setAdd _ _ h2)
    | false =>
      rw [addEntries_cons_file]
      exact ih _ (nodup_setAdd _ _ h1) h2

lemma loop_ok_patOk (env : Env) (fs : Fs) (root : String) :
    ∀ (ops : List IDeleteOperation) (acc r : IGetPathsToDeleteResult),
      (getPathsLoop env fs root ops acc).2 = .ok r →
      ∀ op ∈ ops, env.patOk (normalizeFileSelectionSpecifier root op) = true := by
  intro ops
  induction ops with
  | nil => intro acc r _ op h; exact absurd h (by simp)
  | cons op2 rest ih =>
    intro acc r h op hop
    cases hsel : getFileSelectionSpecifierPaths env fs
        (normalizeFileSelectionSpecifier root op2) with
    | error e =>
      rw [getPathsLoop_cons_err hsel] at h
      exact absurd h (by simp)
    | ok entries =>
      rcases List.mem_cons.mp hop with rfl | hop2
      · exact (sel_ok_iff.mp hsel).1
      · rw [getPathsLoop_cons_ok hsel] at h
        exact ih _ r h op hop2

lemma mem_loop_files (env : Env) (fs : Fs) (root : String) :
    ∀ (ops : List IDeleteOperation) (acc r : IGetPathsToDeleteResult),
      (getPathsLoop env fs root ops acc).2 = .ok r →
      ∀ p, (p ∈ r.filesToDelete ↔
        p ∈ acc.filesToDelete ∨ ((p, false) ∈ fs ∧
          ∃ op ∈ ops, env.selects (normalizeFileSelectionSpecifier root op) p = true)) := by
  intro ops
  induction ops with
  | nil =>
    intro acc r h p
    rw [getPathsLoop] at h
    have : acc = r := by simpa using h
    subst this
    simp
  | cons op rest ih =>
    intro acc r h p
    cases hsel : getFileSelectionSpecifierPaths env fs
        (normalizeFileSelectionSpecifier root op) with
    | error e =>
      rw [getPathsLoop_cons_err hsel] at h
      exact absurd h (by simp)
    | ok entries =>
      rw [getPathsLoop_cons_ok hsel] at h
      rcases sel_ok_iff.mp hsel with ⟨-, hent⟩
      rw [ih _ r h p, mem_addEntries_files, hent]
      simp only [List.mem_filter, List.mem_cons]
      constructor
      · rintro ((h1 | ⟨hfs, hsl⟩) | ⟨hfs, op2, hop2, hsl⟩)
        · exact Or.inl h1
        · exact Or.inr ⟨hfs, op, Or.inl rfl, hsl⟩
        · exact Or.inr ⟨hfs, op2, Or.inr hop2, hsl⟩
      · rintro (h1 | ⟨hfs, op2, (rfl | hop2), hsl⟩)
        · exact Or.inl (Or.inl h1)
        · exact Or.inl (Or.inr ⟨hfs, hsl⟩)
        · exact Or.inr ⟨hfs, op2, hop2, hsl⟩

lemma mem_loop_folders (env : Env) (fs : Fs) (root : String) :
    ∀ (ops : List IDeleteOperation) (acc r : IGetPathsToDeleteResult),
      (getPathsLoop env fs root ops acc).2 = .ok r →
      ∀ p, (p ∈ r.foldersToDelete ↔
        p ∈ acc.foldersToDelete ∨ ((p, true) ∈ fs ∧
          ∃ op ∈ ops, env.selects (normalizeFileSelectionSpecifier root op) p = true)) := by
  intro ops
  induction ops with
  | nil =>
    intro acc r h p
    rw [getPathsLoop] at h
    have : acc = r := by simpa using h
    subst this
    simp
  | cons op rest ih =>
    intro acc r h p
    cases hsel : getFileSelectionSpecifierPaths env fs
        (normalizeFileSelectionSpecifier root op) with
    | error e =>
      rw [getPathsLoop_cons_err hsel] at h
      exact absurd h (by simp)
    | ok entries =>
      rw [getPathsLoop_cons_ok hsel] at h
      rcases sel_ok_iff.mp hsel with ⟨-, hent⟩
      rw [ih _ r h p, mem_addEntries_folders, hent]
      simp only [List.mem_filter, List.mem_cons]
      constructor
      · rintro ((h1 | ⟨hfs, hsl⟩) | ⟨hfs, op2, hop2, hsl⟩)
        · exact Or.inl h1
        · exact Or.inr ⟨hfs, op, Or.inl rfl, hsl⟩
        · exact Or.inr ⟨hfs, op2, Or.inr hop2, hsl⟩
      · rintro (h1 | ⟨hfs, op2, (rfl | hop2), hsl⟩)
        · exact Or.inl (Or.inl h1)
        · exact Or.inl (Or.inr ⟨hfs, hsl⟩)
        · exact Or.inr ⟨hfs, op2, hop2, hsl⟩

lemma nodup_loop (env : Env) (fs : Fs) (root : String) :
    ∀ (ops : List IDeleteOperation) (acc r : IGetPathsToDeleteResult),
      (getPathsLoop env fs root ops acc).2 = .ok r →
      acc.filesToDelete.Nodup → acc.foldersToDelete.Nodup →
      (r.filesToDelete.Nodup ∧ r.foldersToDelete.Nodup) := by
  intro ops
  induction ops with
  | nil =>
    intro acc r h h1 h2
    rw [getPathsLoop] at h
    have : acc = r := by simpa using h
    subst this
    exact ⟨h1, h2⟩
  | cons op rest ih =>
    intro acc r h h1 h2
    cases hsel : getFileSelectionSpecifierPaths env fs
        (normalizeFileSelectionSpecifier root op) with
    | error e =>
      rw [getPathsLoop_cons_err hsel] at h
      exact absurd h (by simp)
    | ok entries =>
      rw [getPathsLoop_cons_ok hsel] at h
      have hn := nodup_addEntries entries acc h1 h2
      exact ih _ r h hn.1 hn.2

/-- C5: for every successful resolution over a filesystem whose paths are unambiguous,
each path occurs at most once in each result set, no path is in both sets, membership is
exactly "some operation selects the path and the filesystem reports it a file (resp. a
directory)", and consequently the result's membership is invariant under permuting the
delete operations — overlapping operations selecting the same path still yield the path
exactly once. -/
theorem resolver_dedup_order_independent (env : Env) (fs : Fs) (root : String)
    (ops opsAfter : List IDeleteOperation) (r : IGetPathsToDeleteResult)
    (hkeys : (fs.map Prod.fst).Nodup)
    (h : _getPathsToDeleteAsync env fs root ops = (opsAfter, .ok r)) :
    r.filesToDelete.Nodup ∧ r.foldersToDelete.Nodup ∧
      (∀ p, ¬(p ∈ r.filesToDelete ∧ p ∈ r.foldersToDelete)) ∧
      (∀ p, p ∈ r.filesToDelete ↔
        ((p, false) ∈ fs ∧
          ∃ op ∈ ops, env.selects (normalizeFileSelectionSpecifier root op) p = true)) ∧
      (∀ p, p ∈ r.foldersToDelete ↔
        ((p, true) ∈ fs ∧
          ∃ op ∈ ops, env.selects (normalizeFileSelectionSpecifier root op) p = true)) ∧
      (∀ (ops2 opsAfter2 : List IDeleteOperation) (r2 : IGetPathsToDeleteResult),
        ops.Perm ops2 →
        _getPathsToDeleteAsync env fs root ops2 = (opsAfter2, .ok r2) →
        (∀ p, p ∈ r2.filesToDelete ↔ p ∈ r.filesToDelete) ∧
          (∀ p, p ∈ r2.foldersToDelete ↔ p ∈ r.foldersToDelete)) := by
  have h2 : (getPathsLoop env fs root ops ⟨[], []⟩).2 = .ok r := by
    rw [_getPathsToDeleteAsync] at h
    rw [h]
  have hnd := nodup_loop env fs root ops ⟨[], []⟩ r h2 List.nodup_nil List.nodup_nil
  have hmf := mem_loop_files env fs root ops ⟨[], []⟩ r h2
  have hmd := mem_loop_folders env fs root ops ⟨[], []⟩ r h2
  have hmf2 : ∀ p, p ∈ r.filesToDelete ↔
      ((p, false) ∈ fs ∧
        ∃ op ∈ ops, env.selects (normalizeFileSelectionSpecifier root op) p = true) := by
    intro p
    rw [hmf p]
    simp
  have hmd2 : ∀ p, p ∈ r.foldersToDelete ↔
      ((p, true) ∈ fs ∧
        ∃ op ∈ ops, env.selects (normalizeFileSelectionSpecifier root op) p = true) := by
    intro p
    rw [hmd p]
    simp
  refine ⟨hnd.1, hnd.2, ?_, hmf2, hmd2, ?_⟩
  · rintro p ⟨hf, hd⟩
    have h1 := (hmf2 p).mp hf
    have h3 := (hmd2 p).mp hd
    have := List.inj_on_of_nodup_map hkeys h1.1 h3.1 rfl
    simp at this
  · intro ops2 opsAfter2 r2 hperm hres2
    have h22 : (getPathsLoop env fs root ops2 ⟨[], []⟩).2 = .ok r2 := by
      rw [_getPathsToDeleteAsync] at hres2
      rw [hres2]
    have hmf3 := mem_loop_files env fs root ops2 ⟨[], []⟩ r2 h22
    have hmd3 := mem_loop_folders env fs root ops2 ⟨[], []⟩ r2 h22
    constructor
    · intro p
      rw [hmf3 p, hmf2 p]
      simp only [List.not_mem_nil, false_or]
      constructor
      · rintro ⟨hfs, op2, hop2, hsl⟩
        exact ⟨hfs, op2, hperm.mem_iff.mpr hop2, hsl⟩
      · rintro ⟨hfs, op2, hop2, hsl⟩
        exact ⟨hfs, op2, hperm.mem_iff.mp hop2, hsl⟩
    · intro p
      rw [hmd3 p, hmd2 p]
      simp only [List.not_mem_nil, false_or]
      constructor
      · rintro ⟨hfs, op2, hop2, hsl⟩
        exact ⟨hfs, op2, hperm.mem_iff.mpr hop2, hsl⟩
      · rintro ⟨hfs, op2, hop2, hsl⟩
        exact ⟨hfs, op2, hperm.mem_iff.mp hop2, hsl⟩

lemma isAbsPath_append (root s : String) (h : isAbsPath root = true) :
    isAbsPath (root ++ "/" ++ s) = true := by
  rw [isAbsPath] at h ⊢
  have hd : root.data.head? = some '/' := by simpa using h
  cases hroot : root.data with
  | nil => rw [hroot] at hd; simp at hd
  | cons c t =>
    rw [hroot] at hd
    simp only [List.head?_cons, Option.some.injEq] at hd
    rw [String.data_append, String.data_append, hroot]
    simp [hd]

lemma norm_idem (root : String) (h : isAbsPath root = true) (op : IDeleteOperation) :
    normalizeFileSelectionSpecifier root (normalizeFileSelectionSpecifier root op) =
      normalizeFileSelectionSpecifier root op := by
  by_cases habs : isAbsPath op.sourcePath = true
  · have hin : normalizeFileSelectionSpecifier root op = op := by
      rw [normalizeFileSelectionSpecifier, if_pos habs]
    rw [hin, hin]
  · have hin : normalizeFileSelectionSpecifier root op =
        { op with sourcePath := root ++ "/" ++ op.sourcePath } := by
      rw [normalizeFileSelectionSpecifier, if_neg habs]
    rw [hin, normalizeFileSelectionSpecifier,
      if_pos (isAbsPath_append root op.sourcePath h)]

lemma fsDeleteEntry_ok {locked : String → Bool} {fs : Fs} {p : String} {fs2 : Fs}
    (h : fsDeleteEntry locked fs p = .ok fs2) :
    fs2 = fs.filter fun e => e.1 != p := by
  rw [fsDeleteEntry] at h
  split at h
  · split at h
    · exact absurd h (by simp)
    · simpa using h.symm
  · exact absurd h (by simp)

lemma fsDeleteEntry_notExist {locked : String → Bool} {fs : Fs} {p q : String}
    (h : fsDeleteEntry locked fs p = .error (.notExist q)) : pathExists fs p = false := by
  rw [fsDeleteEntry] at h
  split at h
  · split at h <;> simp at h
  · rename_i h2
    simpa using h2

lemma deleteFileStep_fs (locked : String → Bool) :
    ∀ (st : DelState) (p : String), (deleteFileStep locked st p).2 = none →
      ((deleteFileStep locked st p).1).fs = st.fs.filter fun e => e.1 != p := by
  intro st p h
  cases hfs : fsDeleteEntry locked st.fs p with
  | ok fs2 => simp [deleteFileStep, hfs, fsDeleteEntry_ok hfs]
  | error e =>
    cases e with
    | notExist q =>
      rw [pathExists_false_filter _ _ (fsDeleteEntry_notExist hfs)]
      simp [deleteFileStep, hfs]
    | hard q =>
      exfalso
      simp [deleteFileStep, hfs] at h

lemma deleteFolderStep_fs (locked : String → Bool) :
    ∀ (st : DelState) (p : String), (deleteFolderStep locked st p).2 = none →
      ((deleteFolderStep locked st p).1).fs = st.fs.filter fun e => e.1 != p := by
  intro st p h
  cases hfs : fsDeleteEntry locked st.fs p with
  | ok fs2 => simp [deleteFolderStep, hfs, fsDeleteEntry_ok hfs]
  | error e =>
    cases e with
    | notExist q =>
      rw [pathExists_false_filter _ _ (fsDeleteEntry_notExist hfs)]
      simp [deleteFolderStep, hfs]
    | hard q =>
      exfalso
      simp [deleteFolderStep, hfs] at h

lemma runPhase_fs_of_ok (step : DelState → String → DelState × Option FsError)
    (hstep : ∀ st p, (step st p).2 = none →
      ((step st p).1).fs = st.fs.filter fun e => e.1 != p) :
    ∀ (l : List String) (st st2 : DelState),
      runPhase step st l = (st2, none) →
      st2.fs = st.fs.filter fun e => !(l.contains e.1) := by
  intro l
  induction l with
  | nil =>
    intro st st2 h
    rw [runPhase] at h
    obtain ⟨h3, -⟩ := (Prod.mk.injEq _ _ _ _).mp h
    subst h3
    simp
  | cons p rest ih =>
    intro st st2 h
    rcases hp : step st p with ⟨st1, o⟩
    cases o with
    | some e =>
      rw [runPhase_cons_err hp] at h
      simp at h
    | none =>
      rw [runPhase_cons_none hp] at h
      have h1 := ih st1 st2 h
      have h2 : st1.fs = st.fs.filter fun e => e.1 != p := by
        have h3 := hstep st p (by rw [hp])
        rw [hp] at h3
        exact h3
      rw [h1, h2, List.filter_filter]
      apply List.filter_congr
      intro e _
      by_cases hep : e.1 = p <;>
        simp [hep, List.contains_cons, Bool.not_or, bne, Bool.and_comm]

lemma not_mem_of_contains_false {l : List String} {a : String}
    (h : l.contains a = false) : a ∉ l := by
  intro hm
  have h2 : l.contains a = true := List.elem_eq_true_of_mem hm
  rw [h2] at h
  exact Bool.true_eq_false.mp h

lemma run_eq_of_res_ok {env : Env} {fs : Fs} {root : String}
    {ops opsAfter : List IDeleteOperation} {r : IGetPathsToDeleteResult}
    (hres : _getPathsToDeleteAsync env fs root ops = (opsAfter, .ok r)) :
    deleteFilesAsync env fs root ops =
      ⟨opsAfter, (_deleteFilesInnerAsync env.locked r fs).1,
        (_deleteFilesInnerAsync env.locked r fs).2.map .deletion⟩ := by
  rw [deleteFilesAsync, hres]

lemma run_ok_decomp (env : Env) (fs : Fs) (root : String) (ops : List IDeleteOperation)
    (h : (deleteFilesAsync env fs root ops).err = none) :
    ∃ (opsAfter : List IDeleteOperation) (r : IGetPathsToDeleteResult) (st st2 : DelState),
      _getPathsToDeleteAsync env fs root ops = (opsAfter, .ok r) ∧
        runPhase (deleteFileStep env.locked) (initialDelState fs) r.filesToDelete =
          (st, none) ∧
        runPhase (deleteFolderStep env.locked) st r.foldersToDelete = (st2, none) ∧
        deleteFilesAsync env fs root ops =
          ⟨opsAfter,
            { st2 with
                outputLines :=
                  st2.outputLines ++ report st2.deletedFiles st2.deletedFolders },
            none⟩ := by
  rcases hres : _getPathsToDeleteAsync env fs root ops with ⟨opsAfter, exc⟩
  cases exc with
  | error e =>
    rw [deleteFilesAsync, hres] at h
    simp at h
  | ok r =>
    rw [run_eq_of_res_ok hres] at h
    rcases h1 : runPhase (deleteFileStep env.locked) (initialDelState fs) r.filesToDelete
      with ⟨st, o⟩
    cases o with
    | some e =>
      rw [inner_file_err h1] at h
      simp at h
    | none =>
      rcases h2 : runPhase (deleteFolderStep env.locked) st r.foldersToDelete
        with ⟨st2, o2⟩
      cases o2 with
      | some e =>
        rw [inner_folder_err h1 h2] at h
        simp at h
      | none =>
        refine ⟨opsAfter, r, st, st2, rfl, h1, h2, ?_⟩
        rw [run_eq_of_res_ok hres, inner_ok h1 h2]
        rfl

lemma loop_empty_sel (env : Env) (fs3 : Fs) (root : String) :
    ∀ (ops2 : List IDeleteOperation),
      (∀ op ∈ ops2, env.patOk (normalizeFileSelectionSpecifier root op) = true ∧
        fs3.filter
          (fun e => env.selects (normalizeFileSelectionSpecifier root op) e.1) = []) →
      ∀ acc, getPathsLoop env fs3 root ops2 acc =
        (ops2.map (normalizeFileSelectionSpecifier root), .ok acc) := by
  intro ops2
  induction ops2 with
  | nil => intro _ acc; rw [getPathsLoop]; rfl
  | cons op rest ih =>
    intro hall acc
    rcases hall op (by simp) with ⟨hp, hf⟩
    have hsel : getFileSelectionSpecifierPaths env fs3
        (normalizeFileSelectionSpecifier root op) = .ok [] := by
      rw [getFileSelectionSpecifierPaths, if_pos hp, hf]
    rw [getPathsLoop_cons_ok hsel, addEntries_nil,
      ih (fun q hq => hall q (by simp [hq])) acc, List.map_cons]

theorem resolver_dedup_order_independent_witness :
    (([("/a", false), ("/d", true)] : Fs).map Prod.fst).Nodup ∧
      ((⟨["/a"], ["/d"]⟩ : IGetPathsToDeleteResult).filesToDelete.Nodup ∧
        ¬("/a" ∈ (⟨["/a"], ["/d"]⟩ : IGetPathsToDeleteResult).filesToDelete ∧
          "/a" ∈ (⟨["/a"], ["/d"]⟩ : IGetPathsToDeleteResult).foldersToDelete)) :=
  ⟨by decide,
    (resolver_dedup_order_independent ⟨fun _ => true, fun _ _ => true, fun _ => false⟩
      [("/a", false), ("/d", true)] "/r" [⟨"/s", "*"⟩] [⟨"/s", "*"⟩] ⟨["/a"], ["/d"]⟩
      (by decide) rfl).1,
    (resolver_dedup_order_independent ⟨fun _ => true, fun _ _ => true, fun _ => false⟩
      [("/a", false), ("/d", true)] "/r" [⟨"/s", "*"⟩] [⟨"/s", "*"⟩] ⟨["/a"], ["/d"]⟩
      (by decide) rfl).2.2.1 "/a"⟩

/-- C8: idempotence of the full pipeline: if a run completes with no error, running the
pipeline again — over the filesystem the first run left behind, with the operation
objects as the first run left them (normalized in place, the root folder being an
absolute path) — deletes nothing: both outcome counters are zero, no error is raised,
and the reporter emits nothing. -/
theorem pipeline_idempotent (env : Env) (fs : Fs) (root : String)
    (ops : List IDeleteOperation) (hroot : isAbsPath root = true)
    (h : (deleteFilesAsync env fs root ops).err = none) :
    (deleteFilesAsync env (deleteFilesAsync env fs root ops).state.fs root
        (deleteFilesAsync env fs root ops).opsAfter).state.deletedFiles = 0 ∧
      (deleteFilesAsync env (deleteFilesAsync env fs root ops).state.fs root
        (deleteFilesAsync env fs root ops).opsAfter).state.deletedFolders = 0 ∧
      (deleteFilesAsync env (deleteFilesAsync env fs root ops).state.fs root
        (deleteFilesAsync env fs root ops).opsAfter).err = none ∧
      (deleteFilesAsync env (deleteFilesAsync env fs root ops).state.fs root
        (deleteFilesAsync env fs root ops).opsAfter).state.outputLines = [] := by
  rcases run_ok_decomp env fs root ops h with ⟨opsAfter, r, st, st2, hres, h1, h2, hrun⟩
  have hloop : (getPathsLoop env fs root ops ⟨[], []⟩).2 = .ok r := by
    rw [_getPathsToDeleteAsync] at hres
    rw [hres]
  have hops : opsAfter = ops.map (normalizeFileSelectionSpecifier root) := by
    have h3 : (getPathsLoop env fs root ops ⟨[], []⟩).1 = opsAfter := by
      rw [_getPathsToDeleteAsync] at hres
      rw [hres]
    rw [← h3]
    exact getPathsLoop_opsAfter env fs root ops ⟨[], []⟩ r hloop
  have hstfs : st.fs = fs.filter fun e => !(r.filesToDelete.contains e.1) := by
    have h4 := runPhase_fs_of_ok _ (deleteFileStep_fs env.locked) r.filesToDelete
      (initialDelState fs) st h1
    simpa [initialDelState] using h4
  have hst2fs : st2.fs = fs.filter fun e =>
      (!(r.foldersToDelete.contains e.1)) && (!(r.filesToDelete.contains e.1)) := by
    have h4 := runPhase_fs_of_ok _ (deleteFolderStep_fs env.locked) r.foldersToDelete
      st st2 h2
    rw [h4, hstfs, List.filter_filter]
  have hfs3 : (deleteFilesAsync env fs root ops).state.fs = fs.filter fun e =>
      (!(r.foldersToDelete.contains e.1)) && (!(r.filesToDelete.contains e.1)) := by
    rw [hrun]
    exact hst2fs
  have hopsA : (deleteFilesAsync env fs root ops).opsAfter = opsAfter := by
    rw [hrun]
  have hallsel : ∀ op2 ∈ opsAfter,
      env.patOk (normalizeFileSelectionSpecifier root op2) = true ∧
      ((deleteFilesAsync env fs root ops).state.fs).filter
        (fun e => env.selects (normalizeFileSelectionSpecifier root op2) e.1) = [] := by
    intro op2 hop2
    rw [hops] at hop2
    obtain ⟨op, hop, rfl⟩ := List.mem_map.mp hop2
    rw [norm_idem root hroot op]
    refine ⟨loop_ok_patOk env fs root ops ⟨[], []⟩ r hloop op hop, ?_⟩
    rw [List.filter_eq_nil_iff]
    rintro e he hsl
    rw [hfs3, List.mem_filter] at he
    rcases he with ⟨hefs, hcond⟩
    rw [Bool.and_eq_true] at hcond
    have hnotd : e.1 ∉ r.foldersToDelete :=
      not_mem_of_contains_false (by
        rcases hcond with ⟨hc1, -⟩
        simpa using hc1)
    have hnotf : e.1 ∉ r.filesToDelete :=
      not_mem_of_contains_false (by
        rcases hcond with ⟨-, hc2⟩
        simpa using hc2)
    obtain ⟨p, b⟩ := e
    cases b with
    | false =>
      exact hnotf ((mem_loop_files env fs root ops ⟨[], []⟩ r hloop p).mpr
        (Or.inr ⟨hefs, op, hop, hsl⟩))
    | true =>
      exact hnotd ((mem_loop_folders env fs root ops ⟨[], []⟩ r hloop p).mpr
        (Or.inr ⟨hefs, op, hop, hsl⟩))
  have hres2 : _getPathsToDeleteAsync env (deleteFilesAsync env fs root ops).state.fs
      root opsAfter =
      (opsAfter.map (normalizeFileSelectionSpecifier root), .ok ⟨[], []⟩) := by
    rw [_getPathsToDeleteAsync]
    exact loop_empty_sel env _ root opsAfter hallsel ⟨[], []⟩
  have hinner : _deleteFilesInnerAsync env.locked ⟨[], []⟩
      (deleteFilesAsync env fs root ops).state.fs =
      (initialDelState ((deleteFilesAsync env fs root ops).state.fs), none) := rfl
  rw [hopsA, run_eq_of_res_ok hres2, hinner]
  exact ⟨rfl, rfl, rfl, rfl⟩

theorem pipeline_idempotent_witness :
    isAbsPath "/r" = true ∧
      (deleteFilesAsync ⟨fun _ => true, fun _ _ => true, fun _ => false⟩ [("/a", false)]
          "/r" [⟨"/s", "*"⟩]).err = none ∧
      ((deleteFilesAsync ⟨fun _ => true, fun _ _ => true, fun _ => false⟩
          (deleteFilesAsync ⟨fun _ => true, fun _ _ => true, fun _ => false⟩
            [("/a", false)] "/r" [⟨"/s", "*"⟩]).state.fs "/r"
          (deleteFilesAsync ⟨fun _ => true, fun _ _ => true, fun _ => false⟩
            [("/a", false)] "/r" [⟨"/s", "*"⟩]).opsAfter).state.deletedFiles = 0 ∧
        (deleteFilesAsync ⟨fun _ => true, fun _ _ => true, fun _ => false⟩
          (deleteFilesAsync ⟨fun _ => true, fun _ _ => true, fun _ => false⟩
            [("/a", false)] "/r" [⟨"/s", "*"⟩]).state.fs "/r"
          (deleteFilesAsync ⟨fun _ => true, fun _ _ => true, fun _ => false⟩
            [("/a", false)] "/r" [⟨"/s", "*"⟩]).opsAfter).err = none) :=
  ⟨by decide, rfl,
    (pipeline_idempotent ⟨fun _ => true, fun _ _ => true, fun _ => false⟩ [("/a", false)]
      "/r" [⟨"/s", "*"⟩] (by decide) rfl).1,
    (pipeline_idempotent ⟨fun _ => true, fun _ _ => true, fun _ => false⟩ [("/a", false)]
      "/r" [⟨"/s", "*"⟩] (by decide) rfl).2.2.1⟩

end DeleteFilesPlugin
